import Mathlib

/-!
Formal model of the heatwave in-process generic cache
(github.com/AeaZer/heatwave).

The Go source is shallowly embedded as follows.

* Machine time (`time.Time` / `time.Duration`) is modelled by `Nat` time
  units; every operation that reads the clock takes the current instant
  `now` as an explicit argument.
* Go pointer identity, which the strategies use as the key of their
  `nodeMap` and which the bucket relies on for in-place mutation, is
  modelled by a `Nat` identifier that the bucket allocates freshly for
  every new `CacheItem` (field `nextId` plays the role of the allocator).
* A strategy (`Updater`) never reads a cache item's value or deadline:
  it only uses the item's identity (for `nodeMap` lookups) and its
  immutable `key` field (read by `Nail` from the item returned by
  `Evict`).  A strategy-held reference to an item is therefore modelled
  by the pair `EntryRef = (id, key)`.
* The LRU doubly linked list with its two sentinel nodes collapses to a
  Lean list ordered most-recently-used first (the element adjacent to
  the Go head sentinel is the head of the list); the `nodeMap` is the
  identity lookup `findId` on that list, and the `size` counter, which
  the Go code increments and decrements in lock-step with linking and
  unlinking, is the list length.
* The Go `map[string]*CacheItem[T]` is an association list of items
  looked up through their own `key` field (the source establishes
  `cache[k].key = k` at every insertion).
* Goroutines and locks are outside the embedding: every exported
  operation runs under the bucket's exclusive lock in the source, so the
  sequential semantics below is exactly the per-operation semantics; a
  sweeper tick is the `cleanupExpired` body that the background
  goroutine executes under the same lock.
-/

namespace Heatwave

/-- Error values surfaced by bucket operations.  The cache has exactly
one error condition, Go `ErrBucketClosed`, returned by `Nail` when the
bucket is closed. -/
inductive CacheError where
  | bucketClosed
deriving DecidableEq

/-- Go `CacheItem[T]`: a stored entry.  `id` models the Go pointer
identity of the heap-allocated item (fresh per allocation, never
reused).  `expiredAt = some d` is a concrete deadline, compared with
`time.Now().After`; `expiredAt = none` models the unbounded deadline of
never-expire mode (the Go source of that option is not among the
embedded files and is modelled from the spec, see
`WithBucketNeverExpire`). -/
structure CacheItem (T : Type) where
  id : Nat
  key : String
  value : T
  expiredAt : Option Nat
deriving DecidableEq

/-- Go `time.Now().After(item.expiredAt)`: an item is expired at `now`
iff its deadline lies strictly in the past.  An unbounded deadline is
never in the past. -/
def CacheItem.expired (it : CacheItem T) (now : Nat) : Bool :=
  match it.expiredAt with
  | none => false
  | some d => d < now

/-- A strategy's non-owning reference to a cache item: the item's
pointer identity together with its immutable key (the only two facts a
strategy ever reads through the pointer). -/
structure EntryRef where
  id : Nat
  key : String
deriving DecidableEq

/-- Lookup in the Go map `cache[k]`, modelled on the association list. -/
def lookupCache : List (CacheItem T) → String → Option (CacheItem T)
  | [], _ => none
  | it :: rest, k => if it.key = k then some it else lookupCache rest k

/-- Go `delete(cache, k)`: remove the binding for `k` (the first and,
in every reachable state, only item with that key). -/
def eraseCache : List (CacheItem T) → String → List (CacheItem T)
  | [], _ => []
  | it :: rest, k => if it.key = k then rest else it :: eraseCache rest k

/-- Go map assignment `cache[newIt.key] = newIt`: replace the existing
binding for that key, or append a new one. -/
def insertCache : List (CacheItem T) → CacheItem T → List (CacheItem T)
  | [], newIt => [newIt]
  | it :: rest, newIt =>
      if it.key = newIt.key then newIt :: rest else it :: insertCache rest newIt

/-- Identity lookup in a strategy's ordering: Go `nodeMap[item]`. -/
def findId : List EntryRef → Nat → Option EntryRef
  | [], _ => none
  | r :: rs, i => if r.id = i then some r else findId rs i

/-- Unlink the (unique, in reachable states) node whose item has
identity `i`: Go `removeNode(nodeMap[item])`, resp. the FIFO splice. -/
def eraseId : List EntryRef → Nat → List EntryRef
  | [], _ => []
  | r :: rs, i => if r.id = i then rs else r :: eraseId rs i

/-- Go `lru.removeTail`: detach the node adjacent to the tail sentinel
(the last element of the most-recent-first list) and return it; return
`none` when the list is empty (`size == 0`). -/
def removeTail : List EntryRef → List EntryRef × Option EntryRef
  | [] => ([], none)
  | r :: rs =>
      match removeTail rs with
      | (rest, some out) => (r :: rest, some out)
      | (_, none) => ([], some r)

/-- The two built-in eviction strategies of the source: `lru` (the
default, a doubly linked list ordered most-recently-used first) and
`fifo` (a slice ordered oldest-inserted first). -/
inductive Strategy where
  | lru (order : List EntryRef)
  | fifo (items : List EntryRef)
deriving DecidableEq

namespace Strategy

/-- The ordering a strategy currently tracks, as a list of item
references. -/
def refs : Strategy → List EntryRef
  | lru order => order
  | fifo items => items

/-- Go `lru.Add` (allocate a node, record it in `nodeMap`, link it at
the head) resp. `fifo.Add` (append to the slice). -/
def Add : Strategy → EntryRef → Strategy
  | lru order, r => lru (r :: order)
  | fifo items, r => fifo (items ++ [r])

/-- Go `lru.Access`: if the item is tracked in `nodeMap`, move its node
to the head (unlink + relink); otherwise do nothing.  Go `fifo.Access`
never reorders. -/
def Access : Strategy → EntryRef → Strategy
  | lru order, r =>
      match findId order r.id with
      | some x => lru (x :: eraseId order r.id)
      | none => lru order
  | fifo items, _ => fifo items

/-- Go `lru.Remove`: if tracked in `nodeMap`, unlink the node and drop
the map entry.  Go `fifo.Remove`: scan from the front, splice out the
first identity match. -/
def Remove : Strategy → EntryRef → Strategy
  | lru order, r =>
      match findId order r.id with
      | some _ => lru (eraseId order r.id)
      | none => lru order
  | fifo items, r => fifo (eraseId items r.id)

/-- Go `lru.Evict` (`removeTail`) resp. `fifo.Evict` (pop the first
slice element); `none` when the ordering is empty. -/
def Evict : Strategy → Strategy × Option EntryRef
  | lru order =>
      let (order', out) := removeTail order
      (lru order', out)
  | fifo [] => (fifo [], none)
  | fifo (r :: rs) => (fifo rs, some r)

/-- Go `Size`: the `lru.size` counter (kept equal to the linked-list
length) resp. `len(fifo.items)`. -/
def Size : Strategy → Nat
  | lru order => order.length
  | fifo items => items.length

/-- Go `Clear`: reset to fresh sentinels / empty the slice. -/
def Clear : Strategy → Strategy
  | lru _ => lru []
  | fifo _ => fifo []

end Strategy

/-- Go `Bucket[T]`.  `maxSize` keeps the Go `int` type (negative and
zero configurations are representable, `WithMaxSize` performs no
validation); `outdated` is the TTL duration in time units; `nextId` is
the allocator counter supplying fresh pointer identities; the mutexes,
the `stopCleanup` channel and the background goroutine of the source
are concurrency plumbing outside the sequential embedding. -/
structure Bucket (T : Type) where
  name : String
  maxSize : Int
  outdated : Nat
  neverExpire : Bool
  cleanupInterval : Nat
  cache : List (CacheItem T)
  updater : Strategy
  closed : Bool
  nextId : Nat
deriving DecidableEq

namespace Bucket

/-- Go `Bucket.isClosed` / `IsClosed`. -/
def isClosed (b : Bucket T) : Bool := b.closed

/-- The insertion tail of Go `Nail` after the optional eviction:
allocate the new item, put it in the table, register it with the
strategy. -/
def nailInsert (b : Bucket T) (u1 : Strategy) (c1 : List (CacheItem T))
    (id : String) (data : T) (expiredAt : Option Nat) : Bucket T :=
  let newItem : CacheItem T := ⟨b.nextId, id, data, expiredAt⟩
  { b with cache := insertCache c1 newItem,
           updater := u1.Add ⟨newItem.id, newItem.key⟩,
           nextId := b.nextId + 1 }

/-- Go `Bucket.Nail`: store `data` under `id` at instant `now`.
Fails on a closed bucket; overwrites in place (same identity, refreshed
value and deadline, strategy `Access`); otherwise evicts via the
strategy when `updater.Size() >= maxSize` and inserts a fresh item. -/
def Nail (b : Bucket T) (now : Nat) (id : String) (data : T) :
    Bucket T × Option CacheError :=
  if b.isClosed then (b, some .bucketClosed)
  else
    let expiredAt : Option Nat :=
      if b.neverExpire then none else some (now + b.outdated)
    match lookupCache b.cache id with
    | some existingItem =>
        ({ b with
             cache := insertCache b.cache
               { existingItem with value := data, expiredAt := expiredAt },
             updater := b.updater.Access ⟨existingItem.id, existingItem.key⟩ },
         none)
    | none =>
        if b.maxSize ≤ (b.updater.Size : Int) then
          match b.updater.Evict with
          | (u, some evictedItem) =>
              (nailInsert b u (eraseCache b.cache evictedItem.key)
                 id data expiredAt, none)
          | (u, none) =>
              (nailInsert b u b.cache id data expiredAt, none)
        else (nailInsert b b.updater b.cache id data expiredAt, none)

/-- Go `Bucket.Bring`: retrieve the value under `id` at instant `now`.
Returns `none` (the Go `(zero, false)`) on a closed bucket, a missing
key, or an expired entry; an expired entry is removed on the spot
through the table-delete + strategy-`Remove` path; a hit notifies the
strategy via `Access`. -/
def Bring (b : Bucket T) (now : Nat) (id : String) :
    Bucket T × Option T :=
  if b.isClosed then (b, none)
  else
    match lookupCache b.cache id with
    | none => (b, none)
    | some item =>
        if item.expired now then
          ({ b with updater := b.updater.Remove ⟨item.id, item.key⟩,
                    cache := eraseCache b.cache id }, none)
        else
          ({ b with updater := b.updater.Access ⟨item.id, item.key⟩ },
           some item.value)

/-- Go `Bucket.Size`: 0 on a closed bucket, otherwise the strategy's
tracked size. -/
def Size (b : Bucket T) : Nat :=
  if b.isClosed then 0 else b.updater.Size

/-- Go `Bucket.Clear`: no-op on a closed bucket, otherwise empty the
table and clear the strategy. -/
def Clear (b : Bucket T) : Bucket T :=
  if b.isClosed then b
  else { b with cache := [], updater := b.updater.Clear }

/-- Go `Bucket.Close`: idempotent; on the first call mark the bucket
closed, signal the sweeper (concurrency plumbing, not modelled) and
clear table and strategy; always return `nil`. -/
def Close (b : Bucket T) : Bucket T × Option CacheError :=
  if b.closed then (b, none)
  else ({ b with closed := true, cache := [],
                 updater := b.updater.Clear }, none)

/-- One step of the removal loop of Go `cleanupExpired`: if the key is
(still) bound, remove the item from the strategy and delete the
binding. -/
def removeKey (b : Bucket T) (k : String) : Bucket T :=
  match lookupCache b.cache k with
  | some item =>
      { b with updater := b.updater.Remove ⟨item.id, item.key⟩,
               cache := eraseCache b.cache k }
  | none => b

/-- Go `Bucket.cleanupExpired`, the body of one sweeper tick: under the
lock, do nothing if closed, otherwise collect the keys of all expired
items and remove each through the table-delete + strategy-`Remove`
path. -/
def cleanupExpired (b : Bucket T) (now : Nat) : Bucket T :=
  if b.closed then b
  else ((b.cache.filter (fun it => it.expired now)).map CacheItem.key).foldl
         removeKey b

end Bucket

/-- Go default constants (`defaultMaxSize`, `defaultOutdated`,
`defaultCleanupInterval`), with time modelled in seconds. -/
def defaultMaxSize : Int := 1000

/-- Default TTL, 5 minutes, in seconds. -/
def defaultOutdated : Nat := 300

/-- Default sweeper interval, 1 minute, in seconds. -/
def defaultCleanupInterval : Nat := 60

/-- Go `NewBucket` before the functional options run: empty table, LRU
strategy, open, with the default configuration. -/
def defaultBucket : Bucket T :=
  { name := "", maxSize := defaultMaxSize, outdated := defaultOutdated,
    neverExpire := false, cleanupInterval := defaultCleanupInterval,
    cache := [], updater := .lru [], closed := false, nextId := 0 }

/-- Go `NewBucket(opts...)`: apply the functional options in order to
the default bucket (the goroutine start is concurrency plumbing). -/
def NewBucket (opts : List (Bucket T → Bucket T)) : Bucket T :=
  opts.foldl (fun b o => o b) defaultBucket

/-- Go `WithBucketName`. -/
def WithBucketName (n : String) (b : Bucket T) : Bucket T :=
  { b with name := n }

/-- Go `WithBucketOutdated` (called `WithBucketExpire` in the current
README): set the TTL; no validation. -/
def WithBucketOutdated (d : Nat) (b : Bucket T) : Bucket T :=
  { b with outdated := d }

/-- Go `WithMaxSize`: set the capacity; the source performs no
validation, any `int` is stored as given. -/
def WithMaxSize (m : Int) (b : Bucket T) : Bucket T :=
  { b with maxSize := m }

/-- Go `WithCleanupInterval`. -/
def WithCleanupInterval (d : Nat) (b : Bucket T) : Bucket T :=
  { b with cleanupInterval := d }

/-- Go `WithFIFOUpdater`: install a fresh FIFO strategy. -/
def WithFIFOUpdater (b : Bucket T) : Bucket T :=
  { b with updater := .fifo [] }

/-- Modelled from the spec: the Go source of `WithBucketNeverExpire`
is not among the embedded files (the option is documented in the
repository README and §6 of the design).  Per the spec it sets the
never-expire flag, after which `Put` assigns an unbounded deadline,
overriding the TTL. -/
def WithBucketNeverExpire (b : Bucket T) : Bucket T :=
  { b with neverExpire := true }

/-- A bucket as produced by `NewBucket` under an arbitrary
configuration: the option functions only set the five configuration
fields, so every freshly constructed bucket has this shape. -/
def initBucket (m : Int) (t : Nat) (ne : Bool) (s : Strategy) : Bucket T :=
  { name := "", maxSize := m, outdated := t, neverExpire := ne,
    cleanupInterval := defaultCleanupInterval, cache := [], updater := s,
    closed := false, nextId := 0 }

/-- The public operations a client (or the sweeper) can perform on a
bucket, each carrying the instant at which it runs. -/
inductive Op (T : Type) where
  | nail (now : Nat) (key : String) (data : T)
  | bring (now : Nat) (key : String)
  | clear
  | close
  | tick (now : Nat)

/-- State transition of one operation (results discarded). -/
def step (b : Bucket T) : Op T → Bucket T
  | .nail now k v => (b.Nail now k v).1
  | .bring now k => (b.Bring now k).1
  | .clear => b.Clear
  | .close => (b.Close).1
  | .tick now => b.cleanupExpired now

/-- Run a sequence of operations from a starting state. -/
def run (b : Bucket T) (ops : List (Op T)) : Bucket T :=
  ops.foldl step b

/-- Run a sequence of `Nail` calls, each given as
(instant, key, value). -/
def runNails (b : Bucket T) (l : List (Nat × String × T)) : Bucket T :=
  l.foldl (fun acc p => (acc.Nail p.1 p.2.1 p.2.2).1) b

/-- The strategy-side view of the key table: one reference per stored
item. -/
def refsOf (c : List (CacheItem T)) : List EntryRef :=
  c.map (fun it => ⟨it.id, it.key⟩)

/-- The reachable-state invariant of a bucket: the strategy's ordering
tracks exactly the items of the key table (as a multiset of
references), keys and identities are pairwise distinct, and every live
identity is below the allocator counter (freshness). -/
structure Inv (b : Bucket T) : Prop where
  perm : b.updater.refs.Perm (refsOf b.cache)
  keys : (b.cache.map CacheItem.key).Nodup
  ids : (b.cache.map CacheItem.id).Nodup
  fresh : ∀ it ∈ b.cache, it.id < b.nextId

/-- The recency-ordering scenario of the spec: maxSize 3, default LRU,
`Put A, Put B, Put C, Get A, Put D`, every operation well inside the
TTL. -/
def lruDemo : Bucket Nat :=
  run (initBucket 3 100 false (.lru []))
    [.nail 0 "A" 1, .nail 0 "B" 2, .nail 0 "C" 3, .bring 0 "A", .nail 0 "D" 4]

/-- The arrival-ordering scenario of the spec: the same operation
sequence against the built-in FIFO strategy. -/
def fifoDemo : Bucket Nat :=
  run (initBucket 3 100 false (.fifo []))
    [.nail 0 "A" 1, .nail 0 "B" 2, .nail 0 "C" 3, .bring 0 "A", .nail 0 "D" 4]

/-! Association-list facts about the key table. -/

theorem lookupCache_mem {c : List (CacheItem T)} {k : String}
    {it : CacheItem T} (h : lookupCache c k = some it) :
    it ∈ c ∧ it.key = k := by
  induction c with
  | nil => simp [lookupCache] at h
  | cons hd tl ih =>
      simp only [lookupCache] at h
      split at h
      · cases h
        exact ⟨List.mem_cons_self _ _, by assumption⟩
      · rcases ih h with ⟨hm, hk⟩
        exact ⟨List.mem_cons_of_mem _ hm, hk⟩

theorem lookupCache_eq_none {c : List (CacheItem T)} {k : String} :
    lookupCache c k = none ↔ ∀ it ∈ c, it.key ≠ k := by
  induction c with
  | nil => simp [lookupCache]
  | cons hd tl ih =>
      simp only [lookupCache]
      split
      · simp_all
      · simp_all

theorem lookupCache_of_mem {c : List (CacheItem T)} {it : CacheItem T}
    (hn : (c.map CacheItem.key).Nodup) (hm : it ∈ c) :
    lookupCache c it.key = some it := by
  induction c with
  | nil => cases hm
  | cons hd tl ih =>
      rcases List.mem_cons.mp hm with h | h
      · subst h
        simp [lookupCache]
      · have hne : hd.key ≠ it.key := by
          intro he
          have : it.key ∈ tl.map CacheItem.key := List.mem_map_of_mem _ h
          rw [← he] at this
          exact (List.nodup_cons.mp hn).1 this
        simp only [lookupCache, if_neg hne]
        exact ih (List.nodup_cons.mp hn).2 h

theorem insertCache_of_lookup_none {c : List (CacheItem T)}
    {it : CacheItem T} (h : lookupCache c it.key = none) :
    insertCache c it = c ++ [it] := by
  induction c with
  | nil => rfl
  | cons hd tl ih =>
      simp only [lookupCache] at h
      split at h
      · cases h
      · simp only [insertCache, if_neg (by assumption), ih h, List.cons_append]

theorem lookupCache_insertCache (c : List (CacheItem T)) (it : CacheItem T) :
    lookupCache (insertCache c it) it.key = some it := by
  induction c with
  | nil => simp [insertCache, lookupCache]
  | cons hd tl ih =>
      by_cases hk : hd.key = it.key
      · simp [insertCache, hk, lookupCache]
      · simp [insertCache, hk, lookupCache, ih]

theorem mem_insertCache {c : List (CacheItem T)} {it x : CacheItem T}
    (h : x ∈ insertCache c it) : x = it ∨ x ∈ c := by
  induction c with
  | nil => simp [insertCache] at h; simp [h]
  | cons hd tl ih =>
      simp only [insertCache] at h
      split at h
      · rcases List.mem_cons.mp h with h | h
        · exact Or.inl h
        · exact Or.inr (List.mem_cons_of_mem _ h)
      · rcases List.mem_cons.mp h with h | h
        · exact Or.inr (h ▸ List.mem_cons_self _ _)
        · rcases ih h with h | h
          · exact Or.inl h
          · exact Or.inr (List.mem_cons_of_mem _ h)

theorem refsOf_insertCache_overwrite {c : List (CacheItem T)} {k : String}
    {it it' : CacheItem T} (h : lookupCache c k = some it)
    (hk : it'.key = it.key) (hid : it'.id = it.id) :
    refsOf (insertCache c it') = refsOf c := by
  induction c with
  | nil => simp [lookupCache] at h
  | cons hd tl ih =>
      simp only [lookupCache] at h
      by_cases hc : hd.key = k
      · rw [if_pos hc] at h
        cases h
        simp only [insertCache, if_pos hk.symm, refsOf, List.map_cons]
        rw [hid, hk]
      · rw [if_neg hc] at h
        have hne : ¬ hd.key = it'.key := by
          rw [hk, (lookupCache_mem h).2]
          exact hc
        simp only [insertCache, if_neg hne, refsOf, List.map_cons]
        have := ih h
        simp only [refsOf] at this
        rw [this]

theorem eraseCache_sublist (c : List (CacheItem T)) (k : String) :
    (eraseCache c k).Sublist c := by
  induction c with
  | nil => simp [eraseCache]
  | cons hd tl ih =>
      simp only [eraseCache]
      split
      · exact List.sublist_cons_self _ _
      · exact List.Sublist.cons₂ _ ih

theorem refsOf_eraseCache {c : List (CacheItem T)} {k : String}
    {it : CacheItem T} (h : lookupCache c k = some it)
    (hids : (c.map CacheItem.id).Nodup) :
    refsOf (eraseCache c k) = eraseId (refsOf c) it.id := by
  induction c with
  | nil => simp [lookupCache] at h
  | cons hd tl ih =>
      simp only [lookupCache] at h
      by_cases hc : hd.key = k
      · rw [if_pos hc] at h
        cases h
        simp [eraseCache, if_pos hc, refsOf, eraseId]
      · rw [if_neg hc] at h
        have hmem : it ∈ tl := (lookupCache_mem h).1
        have hne : hd.id ≠ it.id := by
          intro he
          have : it.id ∈ tl.map CacheItem.id := List.mem_map_of_mem _ hmem
          rw [← he] at this
          exact (List.nodup_cons.mp hids).1 this
        simp only [eraseCache, if_neg hc, refsOf, List.map_cons,
          eraseId, if_neg hne]
        have := ih h (List.nodup_cons.mp hids).2
        simp only [refsOf] at this
        rw [this]

theorem eraseCache_key_ne {c : List (CacheItem T)} {k : String}
    (hn : (c.map CacheItem.key).Nodup) :
    ∀ it ∈ eraseCache c k, it.key ≠ k := by
  induction c with
  | nil => simp [eraseCache]
  | cons hd tl ih =>
      simp only [eraseCache]
      split
      · intro it hmem he
        have hk : hd.key = k := by assumption
        have : it.key ∈ tl.map CacheItem.key := List.mem_map_of_mem _ hmem
        rw [he, ← hk] at this
        exact (List.nodup_cons.mp hn).1 this
      · intro it hmem
        rcases List.mem_cons.mp hmem with h | h
        · subst h; assumption
        · exact ih (List.nodup_cons.mp hn).2 it h

theorem mem_refsOf {c : List (CacheItem T)} {r : EntryRef}
    (h : r ∈ refsOf c) : ∃ it ∈ c, it.id = r.id ∧ it.key = r.key := by
  rcases List.mem_map.mp h with ⟨it, hmem, heq⟩
  exact ⟨it, hmem, by rw [← heq], by rw [← heq]⟩

theorem refsOf_map_key (c : List (CacheItem T)) :
    (refsOf c).map EntryRef.key = c.map CacheItem.key := by
  induction c with
  | nil => rfl
  | cons hd tl ih => simp only [refsOf, List.map_cons] at *; rw [ih]

theorem refsOf_map_id (c : List (CacheItem T)) :
    (refsOf c).map EntryRef.id = c.map CacheItem.id := by
  induction c with
  | nil => rfl
  | cons hd tl ih => simp only [refsOf, List.map_cons] at *; rw [ih]

theorem refsOf_length (c : List (CacheItem T)) :
    (refsOf c).length = c.length := List.length_map _ _

/-! Facts about the identity lookup and unlink on an ordering. -/

theorem findId_eq_none {l : List EntryRef} {i : Nat} :
    findId l i = none ↔ ∀ r ∈ l, r.id ≠ i := by
  induction l with
  | nil => simp [findId]
  | cons hd tl ih =>
      simp only [findId]
      split
      · simp_all
      · simp_all

theorem eraseId_of_none {l : List EntryRef} {i : Nat}
    (h : findId l i = none) : eraseId l i = l := by
  induction l with
  | nil => rfl
  | cons hd tl ih =>
      simp only [findId] at h
      split at h
      · cases h
      · simp only [eraseId, if_neg (by assumption), ih h]

theorem findId_of_mem {l : List EntryRef} {r : EntryRef} (hm : r ∈ l) :
    ∃ x, findId l r.id = some x ∧ x.id = r.id := by
  induction l with
  | nil => cases hm
  | cons hd tl ih =>
      by_cases hc : hd.id = r.id
      · exact ⟨hd, by simp [findId, hc], hc⟩
      · rcases List.mem_cons.mp hm with h | h
        · exact absurd (h ▸ rfl) hc
        · rcases ih h with ⟨x, hx, hxi⟩
          exact ⟨x, by simp [findId, hc, hx], hxi⟩

theorem findId_decomp {l : List EntryRef} {i : Nat} {x : EntryRef}
    (h : findId l i = some x) :
    ∃ l1 l2, l = l1 ++ x :: l2 ∧ eraseId l i = l1 ++ l2 ∧ x.id = i := by
  induction l with
  | nil => cases h
  | cons hd tl ih =>
      by_cases hc : hd.id = i
      · rw [findId, if_pos hc] at h
        cases h
        exact ⟨[], tl, rfl, by simp [eraseId, hc], hc⟩
      · rw [findId, if_neg hc] at h
        rcases ih h with ⟨l1, l2, he, her, hxi⟩
        exact ⟨hd :: l1, l2, by rw [he]; rfl,
          by simp only [eraseId, if_neg hc, her]; rfl, hxi⟩

theorem perm_cons_eraseId {l : List EntryRef} {i : Nat} {x : EntryRef}
    (h : findId l i = some x) : l.Perm (x :: eraseId l i) := by
  rcases findId_decomp h with ⟨l1, l2, he, her, _⟩
  rw [her, he]
  exact List.perm_middle

theorem findId_mem {l : List EntryRef} {i : Nat} {x : EntryRef}
    (h : findId l i = some x) : x ∈ l ∧ x.id = i := by
  rcases findId_decomp h with ⟨l1, l2, he, _, hxi⟩
  exact ⟨he ▸ List.mem_append_right _ (List.mem_cons_self _ _), hxi⟩

theorem length_eraseId {l : List EntryRef} {i : Nat} {x : EntryRef}
    (h : findId l i = some x) : (eraseId l i).length + 1 = l.length := by
  have := (perm_cons_eraseId h).length_eq
  simp only [List.length_cons] at this
  omega

theorem eraseId_cons_self {l : List EntryRef} {r : EntryRef} {i : Nat}
    (h : r.id = i) : eraseId (r :: l) i = l := by
  simp [eraseId, h]

theorem eraseId_perm {l l' : List EntryRef} {i : Nat} (h : l.Perm l')
    (hn : (l.map EntryRef.id).Nodup) :
    (eraseId l i).Perm (eraseId l' i) := by
  have hn' : (l'.map EntryRef.id).Nodup :=
    ((h.map EntryRef.id).nodup_iff).mp hn
  cases hx : findId l i with
  | none =>
      have hnone : findId l' i = none := by
        rw [findId_eq_none] at hx ⊢
        intro r hr
        exact hx r (h.mem_iff.mpr hr)
      rw [eraseId_of_none hx, eraseId_of_none hnone]
      exact h
  | some x =>
      rcases findId_mem hx with ⟨hxm, hxi⟩
      have hxm' : x ∈ l' := h.mem_iff.mp hxm
      rcases findId_of_mem hxm' with ⟨y, hy, hyi⟩
      have hym' : y ∈ l' := (findId_mem hy).1
      have hxy : y = x := List.inj_on_of_nodup_map hn' hym' hxm' hyi
      rw [hxi] at hy
      rw [hxy] at hy
      have p1 : l.Perm (x :: eraseId l i) := perm_cons_eraseId hx
      have p2 : l'.Perm (x :: eraseId l' i) := perm_cons_eraseId hy
      exact List.Perm.cons_inv (p1.symm.trans (h.trans p2))

theorem eraseId_id_ne {l : List EntryRef} {i : Nat}
    (hn : (l.map EntryRef.id).Nodup) :
    ∀ x ∈ eraseId l i, x.id ≠ i := by
  induction l with
  | nil => simp [eraseId]
  | cons hd tl ih =>
      by_cases hc : hd.id = i
      · rw [eraseId, if_pos hc]
        intro x hx he
        have : x.id ∈ tl.map EntryRef.id := List.mem_map_of_mem _ hx
        rw [he, ← hc] at this
        exact (List.nodup_cons.mp hn).1 this
      · rw [eraseId, if_neg hc]
        intro x hx
        rcases List.mem_cons.mp hx with h | h
        · exact h ▸ hc
        · exact ih (List.nodup_cons.mp hn).2 x h

/-! Facts about `removeTail` and the strategy operations. -/

theorem removeTail_none {l l' : List EntryRef}
    (h : removeTail l = (l', none)) : l = [] ∧ l' = [] := by
  cases l with
  | nil =>
      simp only [removeTail] at h
      cases h
      exact ⟨rfl, rfl⟩
  | cons r rs =>
      simp only [removeTail] at h
      split at h <;> cases h

theorem removeTail_some {l l' : List EntryRef} {r : EntryRef}
    (h : removeTail l = (l', some r)) : l = l' ++ [r] := by
  induction l generalizing l' r with
  | nil => simp only [removeTail] at h; cases h
  | cons a rs ih =>
      simp only [removeTail] at h
      split at h
      · rename_i rest out heq
        cases h
        rw [ih heq]
        rfl
      · rename_i rest heq
        cases h
        rcases removeTail_none heq with ⟨h1, _⟩
        rw [h1]
        rfl

namespace Strategy

theorem size_eq (s : Strategy) : s.Size = s.refs.length := by
  cases s <;> rfl

theorem refs_Clear (s : Strategy) : s.Clear.refs = [] := by
  cases s <;> rfl

theorem refs_Add (s : Strategy) (r : EntryRef) :
    (s.Add r).refs.Perm (r :: s.refs) := by
  cases s with
  | lru order => exact List.Perm.refl _
  | fifo items => exact List.perm_append_singleton _ _

theorem size_Add (s : Strategy) (r : EntryRef) :
    (s.Add r).Size = s.Size + 1 := by
  have := (refs_Add s r).length_eq
  simp only [List.length_cons] at this
  rw [size_eq, size_eq, this]

theorem refs_Access (s : Strategy) (r : EntryRef) :
    (s.Access r).refs.Perm s.refs := by
  cases s with
  | lru order =>
      simp only [Access]
      cases hf : findId order r.id with
      | none => exact List.Perm.refl _
      | some x => exact (perm_cons_eraseId hf).symm
  | fifo items => exact List.Perm.refl _

theorem size_Access (s : Strategy) (r : EntryRef) :
    (s.Access r).Size = s.Size := by
  rw [size_eq, size_eq, (refs_Access s r).length_eq]

theorem refs_Remove (s : Strategy) (r : EntryRef) :
    (s.Remove r).refs = eraseId s.refs r.id := by
  cases s with
  | lru order =>
      simp only [Remove]
      cases hf : findId order r.id with
      | none => simp [refs, eraseId_of_none hf]
      | some x => rfl
  | fifo items => rfl

theorem evict_none {s s' : Strategy} (h : s.Evict = (s', none)) :
    s' = s ∧ s.refs = [] := by
  cases s with
  | lru order =>
      simp only [Evict] at h
      rcases hrt : removeTail order with ⟨o', out⟩
      rw [hrt] at h
      cases h
      rcases removeTail_none hrt with ⟨h1, h2⟩
      subst h1
      exact ⟨by rw [h2], rfl⟩
  | fifo items =>
      cases items with
      | nil =>
          simp only [Evict] at h
          cases h
          exact ⟨rfl, rfl⟩
      | cons a rs => simp only [Evict] at h; cases h

theorem evict_some {s s' : Strategy} {r : EntryRef}
    (h : s.Evict = (s', some r)) : s.refs.Perm (r :: s'.refs) := by
  cases s with
  | lru order =>
      simp only [Evict] at h
      rcases hrt : removeTail order with ⟨o', out⟩
      rw [hrt] at h
      cases h
      rw [show Strategy.refs (lru order) = order from rfl,
        removeTail_some hrt]
      exact List.perm_append_singleton _ _
  | fifo items =>
      cases items with
      | nil => simp only [Evict] at h; cases h
      | cons a rs =>
          simp only [Evict] at h
          cases h
          exact List.Perm.refl _

end Strategy

/-! Preservation of the reachable-state invariant. -/

theorem inv_updater_ids {b : Bucket T} (hInv : Inv b) :
    (b.updater.refs.map EntryRef.id).Nodup := by
  refine (hInv.perm.map EntryRef.id).nodup_iff.mpr ?_
  rw [refsOf_map_id]
  exact hInv.ids

theorem refsOf_ids_nodup {b : Bucket T} (hInv : Inv b) :
    ((refsOf b.cache).map EntryRef.id).Nodup := by
  rw [refsOf_map_id]
  exact hInv.ids

theorem inv_remove_entry {b : Bucket T} {k : String} {it : CacheItem T}
    (hInv : Inv b) (h : lookupCache b.cache k = some it) :
    Inv { b with updater := b.updater.Remove ⟨it.id, it.key⟩,
                 cache := eraseCache b.cache k } := by
  have hsub := eraseCache_sublist b.cache k
  refine ⟨?_, ?_, ?_, ?_⟩
  · show (b.updater.Remove ⟨it.id, it.key⟩).refs.Perm
      (refsOf (eraseCache b.cache k))
    rw [Strategy.refs_Remove, refsOf_eraseCache h hInv.ids]
    exact eraseId_perm hInv.perm (inv_updater_ids hInv)
  · exact List.Nodup.sublist (List.Sublist.map _ hsub) hInv.keys
  · exact List.Nodup.sublist (List.Sublist.map _ hsub) hInv.ids
  · intro it2 hm
    exact hInv.fresh it2 (hsub.subset hm)

theorem inv_removeKey {b : Bucket T} (hInv : Inv b) (k : String) :
    Inv (b.removeKey k) := by
  unfold Bucket.removeKey
  cases h : lookupCache b.cache k with
  | none => exact hInv
  | some item => exact inv_remove_entry hInv h

theorem inv_nailInsert {b : Bucket T} {u1 : Strategy}
    {c1 : List (CacheItem T)} {k : String} {v : T} {ea : Option Nat}
    (hperm : u1.refs.Perm (refsOf c1))
    (hkeys : (c1.map CacheItem.key).Nodup)
    (hids : (c1.map CacheItem.id).Nodup)
    (hfresh : ∀ it ∈ c1, it.id < b.nextId)
    (hnone : lookupCache c1 k = none) :
    Inv (b.nailInsert u1 c1 k v ea) := by
  have hkmem : k ∉ c1.map CacheItem.key := by
    intro hkm
    rcases List.mem_map.mp hkm with ⟨it, hm, he⟩
    exact (lookupCache_eq_none.mp hnone it hm) he
  have hidmem : b.nextId ∉ c1.map CacheItem.id := by
    intro him
    rcases List.mem_map.mp him with ⟨it, hm, he⟩
    exact absurd (he ▸ hfresh it hm) (lt_irrefl _)
  have hins : insertCache c1 (⟨b.nextId, k, v, ea⟩ : CacheItem T)
      = c1 ++ [⟨b.nextId, k, v, ea⟩] := insertCache_of_lookup_none hnone
  refine ⟨?_, ?_, ?_, ?_⟩
  · show (u1.Add ⟨b.nextId, k⟩).refs.Perm
      (refsOf (insertCache c1 ⟨b.nextId, k, v, ea⟩))
    rw [hins]
    have h2 : refsOf (c1 ++ [(⟨b.nextId, k, v, ea⟩ : CacheItem T)])
        = refsOf c1 ++ [⟨b.nextId, k⟩] := by
      simp [refsOf, List.map_append]
    rw [h2]
    exact (Strategy.refs_Add _ _).trans
      ((hperm.cons _).trans (List.perm_append_singleton _ _).symm)
  · show ((insertCache c1 ⟨b.nextId, k, v, ea⟩).map CacheItem.key).Nodup
    rw [hins, List.map_append]
    exact (List.perm_append_singleton _ _).nodup_iff.mpr
      (List.nodup_cons.mpr ⟨hkmem, hkeys⟩)
  · show ((insertCache c1 ⟨b.nextId, k, v, ea⟩).map CacheItem.id).Nodup
    rw [hins, List.map_append]
    exact (List.perm_append_singleton _ _).nodup_iff.mpr
      (List.nodup_cons.mpr ⟨hidmem, hids⟩)
  · intro it2 hm
    show it2.id < b.nextId + 1
    simp only [Bucket.nailInsert] at hm
    rw [hins] at hm
    rcases List.mem_append.mp hm with hm | hm
    · exact Nat.lt_succ_of_lt (hfresh it2 hm)
    · rcases List.mem_singleton.mp hm with rfl
      exact Nat.lt_succ_self _

theorem inv_nail {b : Bucket T} (hInv : Inv b) (now : Nat) (k : String)
    (v : T) : Inv (b.Nail now k v).1 := by
  unfold Bucket.Nail Bucket.isClosed
  by_cases hcl : b.closed = true
  · rw [if_pos hcl]
    exact hInv
  · rw [if_neg hcl]
    cases hl : lookupCache b.cache k with
    | some it =>
        simp only [hl]
        have he : refsOf (insertCache b.cache
            { it with value := v,
                      expiredAt := if b.neverExpire then none
                        else some (now + b.outdated) }) = refsOf b.cache :=
          refsOf_insertCache_overwrite hl rfl rfl
        refine ⟨?_, ?_, ?_, ?_⟩ <;> dsimp only
        · rw [he]
          exact (Strategy.refs_Access _ _).trans hInv.perm
        · rw [← refsOf_map_key, he, refsOf_map_key]
          exact hInv.keys
        · rw [← refsOf_map_id, he, refsOf_map_id]
          exact hInv.ids
        · intro x hx
          rcases mem_insertCache hx with rfl | hx
          · exact hInv.fresh it (lookupCache_mem hl).1
          · exact hInv.fresh x hx
    | none =>
        simp only [hl]
        by_cases hsz : b.maxSize ≤ (b.updater.Size : Int)
        · rw [if_pos hsz]
          rcases hev : b.updater.Evict with ⟨u, evOpt⟩
          cases evOpt with
          | none =>
              simp only [hev]
              rcases Strategy.evict_none hev with ⟨hu, _⟩
              subst hu
              exact inv_nailInsert hInv.perm hInv.keys hInv.ids hInv.fresh hl
          | some r =>
              simp only [hev]
              have hperm0 : b.updater.refs.Perm (r :: u.refs) :=
                Strategy.evict_some hev
              have hrmem : r ∈ refsOf b.cache :=
                hInv.perm.mem_iff.mp
                  (hperm0.mem_iff.mpr (List.mem_cons_self _ _))
              rcases mem_refsOf hrmem with ⟨itr, hitm, hiti, hitk⟩
              have hlr : lookupCache b.cache r.key = some itr := by
                rw [← hitk]
                exact lookupCache_of_mem hInv.keys hitm
              have hsub := eraseCache_sublist b.cache r.key
              have hperm1 : u.refs.Perm (refsOf (eraseCache b.cache r.key)) := by
                rw [refsOf_eraseCache hlr hInv.ids, hiti]
                have h3 : (refsOf b.cache).Perm (r :: u.refs) :=
                  hInv.perm.symm.trans hperm0
                have h4 := eraseId_perm (i := r.id) h3 (refsOf_ids_nodup hInv)
                rw [eraseId_cons_self rfl] at h4
                exact h4.symm
              have hnone1 : lookupCache (eraseCache b.cache r.key) k = none := by
                rw [lookupCache_eq_none]
                intro it2 hm2
                exact lookupCache_eq_none.mp hl it2 (hsub.subset hm2)
              exact inv_nailInsert hperm1
                (List.Nodup.sublist (List.Sublist.map _ hsub) hInv.keys)
                (List.Nodup.sublist (List.Sublist.map _ hsub) hInv.ids)
                (fun it2 hm2 => hInv.fresh it2 (hsub.subset hm2))
                hnone1
        · rw [if_neg hsz]
          exact inv_nailInsert hInv.perm hInv.keys hInv.ids hInv.fresh hl

theorem inv_bring {b : Bucket T} (hInv : Inv b) (now : Nat) (k : String) :
    Inv (b.Bring now k).1 := by
  unfold Bucket.Bring Bucket.isClosed
  by_cases hcl : b.closed = true
  · rw [if_pos hcl]
    exact hInv
  · rw [if_neg hcl]
    cases hl : lookupCache b.cache k with
    | none =>
        simp only [hl]
        exact hInv
    | some it =>
        simp only [hl]
        by_cases hex : it.expired now = true
        · rw [if_pos hex]
          exact inv_remove_entry hInv hl
        · rw [if_neg hex]
          exact ⟨(Strategy.refs_Access _ _).trans hInv.perm, hInv.keys,
            hInv.ids, hInv.fresh⟩

theorem inv_clear {b : Bucket T} (hInv : Inv b) : Inv b.Clear := by
  unfold Bucket.Clear Bucket.isClosed
  by_cases hcl : b.closed = true
  · rw [if_pos hcl]
    exact hInv
  · rw [if_neg hcl]
    refine ⟨?_, ?_, ?_, ?_⟩
    · show (b.updater.Clear).refs.Perm (refsOf ([] : List (CacheItem T)))
      rw [Strategy.refs_Clear]
      exact List.Perm.refl _
    · simp
    · simp
    · simp

theorem inv_close {b : Bucket T} (hInv : Inv b) : Inv (b.Close).1 := by
  unfold Bucket.Close
  by_cases hcl : b.closed = true
  · rw [if_pos hcl]
    exact hInv
  · rw [if_neg hcl]
    refine ⟨?_, ?_, ?_, ?_⟩ <;> dsimp only
    · rw [Strategy.refs_Clear]
      exact List.Perm.nil
    · simp
    · simp
    · simp

theorem inv_foldl_removeKey {b : Bucket T} (hInv : Inv b)
    (l : List String) : Inv (l.foldl Bucket.removeKey b) := by
  induction l generalizing b with
  | nil => exact hInv
  | cons hd tl ih => exact ih (inv_removeKey hInv hd)

theorem inv_cleanupExpired {b : Bucket T} (hInv : Inv b) (now : Nat) :
    Inv (b.cleanupExpired now) := by
  unfold Bucket.cleanupExpired
  by_cases hcl : b.closed = true
  · rw [if_pos hcl]
    exact hInv
  · rw [if_neg hcl]
    exact inv_foldl_removeKey hInv _

theorem inv_step {b : Bucket T} (hInv : Inv b) (op : Op T) :
    Inv (step b op) := by
  cases op with
  | nail now k v => exact inv_nail hInv now k v
  | bring now k => exact inv_bring hInv now k
  | clear => exact inv_clear hInv
  | close => exact inv_close hInv
  | tick now => exact inv_cleanupExpired hInv now

theorem inv_run {b : Bucket T} (hInv : Inv b) (ops : List (Op T)) :
    Inv (run b ops) := by
  induction ops generalizing b with
  | nil => exact hInv
  | cons hd tl ih => exact ih (inv_step hInv hd)

theorem inv_initBucket (m : Int) (t : Nat) (ne : Bool) {s : Strategy}
    (hs : s.refs = []) : Inv (initBucket m t ne s (T := T)) := by
  refine ⟨?_, ?_, ?_, ?_⟩ <;> dsimp only [initBucket]
  · rw [hs]
    exact List.Perm.nil
  · simp
  · simp
  · simp

/-! Configuration fields survive the operations. -/

theorem nail_fields (b : Bucket T) (now : Nat) (k : String) (v : T) :
    ((b.Nail now k v).1).closed = b.closed ∧
    ((b.Nail now k v).1).maxSize = b.maxSize ∧
    ((b.Nail now k v).1).outdated = b.outdated ∧
    ((b.Nail now k v).1).neverExpire = b.neverExpire := by
  unfold Bucket.Nail Bucket.isClosed Bucket.nailInsert
  dsimp only
  repeat' split
  all_goals exact ⟨rfl, rfl, rfl, rfl⟩

theorem nail_lookup {b : Bucket T} (hOpen : b.closed = false) (now : Nat)
    (k : String) (v : T) :
    ∃ it1, lookupCache ((b.Nail now k v).1).cache k = some it1 ∧
      it1.value = v ∧
      it1.expiredAt
        = (if b.neverExpire then none else some (now + b.outdated)) := by
  unfold Bucket.Nail Bucket.isClosed
  rw [hOpen]
  simp only [Bool.false_eq_true, if_false]
  cases hl : lookupCache b.cache k with
  | some it =>
      simp only [hl]
      have hk := (lookupCache_mem hl).2
      subst hk
      exact ⟨_, lookupCache_insertCache _ _, rfl, rfl⟩
  | none =>
      simp only [hl]
      repeat' split
      all_goals exact ⟨_, lookupCache_insertCache _ _, rfl, rfl⟩

theorem expired_of_deadline_ge {it : CacheItem T} {now d : Nat}
    (h : it.expiredAt = some d) (hge : now ≤ d) :
    it.expired now = false := by
  unfold CacheItem.expired
  rw [h]
  exact decide_eq_false (by omega)

theorem expired_none {it : CacheItem T} (h : it.expiredAt = none)
    (now : Nat) : it.expired now = false := by
  unfold CacheItem.expired
  rw [h]

theorem eraseId_sublist (l : List EntryRef) (i : Nat) :
    (eraseId l i).Sublist l := by
  induction l with
  | nil => simp [eraseId]
  | cons hd tl ih =>
      simp only [eraseId]
      split
      · exact List.sublist_cons_self _ _
      · exact List.Sublist.cons₂ _ ih

theorem evict_of_refs_nil {s : Strategy} (h : s.refs = []) :
    s.Evict = (s, none) := by
  cases s with
  | lru order =>
      have ho : order = [] := h
      subst ho
      rfl
  | fifo items =>
      have ho : items = [] := h
      subst ho
      rfl

theorem size_evict_some {s s' : Strategy} {r : EntryRef}
    (h : s.Evict = (s', some r)) : s.Size = s'.Size + 1 := by
  rw [Strategy.size_eq, Strategy.size_eq,
    (Strategy.evict_some h).length_eq]
  rfl

/-! Size bounds for `Nail`. -/

theorem nail_size_le {b : Bucket T} (now : Nat) (k : String) (v : T)
    (hpos : 0 < b.maxSize) (h : (b.updater.Size : Int) ≤ b.maxSize) :
    (((b.Nail now k v).1).updater.Size : Int) ≤ b.maxSize := by
  unfold Bucket.Nail Bucket.isClosed
  by_cases hcl : b.closed = true
  · rw [if_pos hcl]
    exact h
  · rw [if_neg hcl]
    cases hl : lookupCache b.cache k with
    | some it =>
        simp only [hl]
        rw [Strategy.size_Access]
        exact h
    | none =>
        simp only [hl]
        by_cases hsz : b.maxSize ≤ (b.updater.Size : Int)
        · rw [if_pos hsz]
          rcases hev : b.updater.Evict with ⟨u, evOpt⟩
          cases evOpt with
          | none =>
              simp only [hev]
              rcases Strategy.evict_none hev with ⟨hu, hrefs⟩
              subst hu
              dsimp only [Bucket.nailInsert]
              rw [Strategy.size_Add, Strategy.size_eq, hrefs]
              simp only [List.length_nil, Nat.zero_add, Nat.cast_one]
              omega
          | some r =>
              simp only [hev]
              dsimp only [Bucket.nailInsert]
              rw [Strategy.size_Add, ← size_evict_some hev]
              exact h
        · rw [if_neg hsz]
          dsimp only [Bucket.nailInsert]
          rw [Strategy.size_Add]
          push_cast
          push_cast at hsz h
          omega

theorem runNails_bound {b : Bucket T} (l : List (Nat × String × T))
    (hpos : 0 < b.maxSize) (h : (b.updater.Size : Int) ≤ b.maxSize) :
    (runNails b l).maxSize = b.maxSize ∧
    ((runNails b l).updater.Size : Int) ≤ b.maxSize := by
  induction l generalizing b with
  | nil => exact ⟨rfl, h⟩
  | cons hd tl ih =>
      have hm := (nail_fields b hd.1 hd.2.1 hd.2.2).2.1
      have hs := nail_size_le hd.1 hd.2.1 hd.2.2 hpos h
      have hpos' : 0 < ((b.Nail hd.1 hd.2.1 hd.2.2).1).maxSize := by
        rw [hm]
        exact hpos
      have hs' : ((((b.Nail hd.1 hd.2.1 hd.2.2).1).updater.Size : Int))
          ≤ ((b.Nail hd.1 hd.2.1 hd.2.2).1).maxSize := by
        rw [hm]
        exact hs
      rcases ih hpos' hs' with ⟨h1, h2⟩
      refine ⟨?_, ?_⟩
      · show (runNails (b.Nail hd.1 hd.2.1 hd.2.2).1 tl).maxSize = b.maxSize
        rw [h1, hm]
      · show ((runNails (b.Nail hd.1 hd.2.1 hd.2.2).1 tl).updater.Size : Int)
          ≤ b.maxSize
        rw [← hm]
        exact h2

theorem nail_size_le_one {b : Bucket T} (now : Nat) (k : String) (v : T)
    (hneg : b.maxSize ≤ 0) (h : b.updater.Size ≤ 1) :
    ((b.Nail now k v).1).updater.Size ≤ 1 := by
  unfold Bucket.Nail Bucket.isClosed
  by_cases hcl : b.closed = true
  · rw [if_pos hcl]
    exact h
  · rw [if_neg hcl]
    cases hl : lookupCache b.cache k with
    | some it =>
        simp only [hl]
        rw [Strategy.size_Access]
        exact h
    | none =>
        simp only [hl]
        have hsz : b.maxSize ≤ (b.updater.Size : Int) :=
          le_trans hneg (Int.natCast_nonneg _)
        rw [if_pos hsz]
        rcases hev : b.updater.Evict with ⟨u, evOpt⟩
        cases evOpt with
        | none =>
            simp only [hev]
            rcases Strategy.evict_none hev with ⟨hu, hrefs⟩
            subst hu
            dsimp only [Bucket.nailInsert]
            rw [Strategy.size_Add, Strategy.size_eq, hrefs]
            simp
        | some r =>
            simp only [hev]
            dsimp only [Bucket.nailInsert]
            rw [Strategy.size_Add]
            have := size_evict_some hev
            omega

theorem runNails_size_le_one {b : Bucket T} (l : List (Nat × String × T))
    (hneg : b.maxSize ≤ 0) (h : b.updater.Size ≤ 1) :
    (runNails b l).updater.Size ≤ 1 := by
  induction l generalizing b with
  | nil => exact h
  | cons hd tl ih =>
      have hm := (nail_fields b hd.1 hd.2.1 hd.2.2).2.1
      exact ih (by rw [hm]; exact hneg)
        (nail_size_le_one hd.1 hd.2.1 hd.2.2 hneg h)

theorem nail_empty {b : Bucket T} (hOpen : b.closed = false)
    (hempty : b.cache = []) (hsz : b.maxSize ≤ (b.updater.Size : Int))
    (hrefs : b.updater.refs = []) (now : Nat) (k : String) (v : T) :
    b.Nail now k v
      = (b.nailInsert b.updater b.cache k v
          (if b.neverExpire then none else some (now + b.outdated)),
         none) := by
  unfold Bucket.Nail Bucket.isClosed
  rw [hOpen]
  rw [if_neg (by simp)]
  rw [hempty]
  dsimp only [lookupCache]
  rw [if_pos hsz, evict_of_refs_nil hrefs]

theorem bring_expired_removes {b1 : Bucket T} {k : String}
    {it1 : CacheItem T} (hInv1 : Inv b1) (hcl1 : b1.closed = false)
    (hl1 : lookupCache b1.cache k = some it1) {now2 : Nat}
    (hexp2 : it1.expired now2 = true) :
    (b1.Bring now2 k).2 = none ∧
    (b1.Bring now2 k).1 = b1.removeKey k ∧
    ((b1.Bring now2 k).1).Size + 1 = b1.Size ∧
    ∀ x ∈ ((b1.Bring now2 k).1).updater.refs, x.key ≠ k := by
  have hbring : b1.Bring now2 k = ({ b1 with
      updater := b1.updater.Remove ⟨it1.id, it1.key⟩,
      cache := eraseCache b1.cache k }, none) := by
    unfold Bucket.Bring Bucket.isClosed
    rw [hcl1, if_neg (by simp), hl1]
    dsimp only
    rw [hexp2, if_pos rfl]
  have hrk : b1.removeKey k = { b1 with
      updater := b1.updater.Remove ⟨it1.id, it1.key⟩,
      cache := eraseCache b1.cache k } := by
    unfold Bucket.removeKey
    rw [hl1]
  have hmem1 : (⟨it1.id, it1.key⟩ : EntryRef) ∈ b1.updater.refs := by
    apply hInv1.perm.mem_iff.mpr
    exact List.mem_map_of_mem _ (lookupCache_mem hl1).1
  refine ⟨?_, ?_, ?_, ?_⟩
  · rw [hbring]
  · rw [hbring, hrk]
  · rw [hbring]
    dsimp only
    unfold Bucket.Size Bucket.isClosed
    dsimp only
    rw [hcl1]
    simp only [Bool.false_eq_true, if_false]
    rcases findId_of_mem hmem1 with ⟨x, hx, _⟩
    rw [Strategy.size_eq, Strategy.refs_Remove, Strategy.size_eq]
    exact length_eraseId hx
  · rw [hbring]
    dsimp only
    intro x hx hkey
    rw [Strategy.refs_Remove] at hx
    have hxid : x.id ≠ it1.id :=
      eraseId_id_ne (inv_updater_ids hInv1) x hx
    have hxmem : x ∈ b1.updater.refs := (eraseId_sublist _ _).subset hx
    have hxc : x ∈ refsOf b1.cache := hInv1.perm.mem_iff.mp hxmem
    rcases mem_refsOf hxc with ⟨itx, hitm, hiti, hitk⟩
    have : lookupCache b1.cache k = some itx := by
      rw [← hkey, ← hitk]
      exact lookupCache_of_mem hInv1.keys hitm
    rw [hl1] at this
    cases this
    exact hxid (by rw [← hiti])

theorem fresh_item_expired (ne : Bool) (now t : Nat) (i : Nat)
    (key : String) (v : T) :
    (CacheItem.mk i key v
      (if ne then none else some (now + t))).expired now = false := by
  cases ne with
  | true => simp [CacheItem.expired]
  | false => exact expired_of_deadline_ge rfl (Nat.le_add_right _ _)

/-! The ten verified properties. -/

/-- C1.  Table/strategy parity invariant: on a bucket constructed with
the built-in LRU strategy (any maxSize/TTL/never-expire configuration),
every state reachable by any sequence of `Nail`, `Bring`, `Clear`,
`Close` and sweeper-tick operations satisfies
`len(cache) == updater.Size()`. -/
theorem table_strategy_parity (m : Int) (t : Nat) (ne : Bool)
    (ops : List (Op T)) :
    (run (initBucket m t ne (.lru [])) ops).cache.length
      = ((run (initBucket m t ne (.lru [])) ops).updater).Size := by
  have h := inv_run (inv_initBucket m t ne (s := Strategy.lru []) rfl) ops
  rw [Strategy.size_eq, h.perm.length_eq, refsOf_length]

/-- C2.  Capacity invariant: with a positive `maxSize` and the built-in
LRU strategy, no sequence of `Nail` calls ever drives the strategy's
tracked size above `maxSize` (a `Nail` of a new key at capacity evicts
before inserting). -/
theorem capacity_invariant (m : Int) (hm : 0 < m) (t : Nat) (ne : Bool)
    (l : List (Nat × String × T)) :
    ((runNails (initBucket m t ne (.lru [])) l).updater.Size : Int) ≤ m := by
  refine (runNails_bound l ?_ ?_).2
  · exact hm
  · simpa using hm.le

/-- Witness for C2 at maxSize 3 and a concrete four-insert run. -/
theorem capacity_invariant_witness :
    (0 : Int) < 3 ∧
    ((runNails (initBucket 3 100 false (.lru []) (T := Nat))
        [(0, "a", 5), (0, "b", 6), (0, "c", 7), (0, "d", 8)]).updater.Size
      : Int) ≤ 3 :=
  ⟨by decide, capacity_invariant 3 (by decide) 100 false _⟩

/-- C3.  Recency (LRU) eviction order: with maxSize 3 and the default
LRU strategy, after `Put A, Put B, Put C, Get A, Put D` (within the
TTL), `Get B` misses (B was least recently used and got evicted) while
`Get A`, `Get C`, `Get D` hit. -/
theorem lru_recency_eviction :
    (lruDemo.Bring 0 "B").2 = none ∧
    ((lruDemo.Bring 0 "B").1.Bring 0 "A").2 = some 1 ∧
    (((lruDemo.Bring 0 "B").1.Bring 0 "A").1.Bring 0 "C").2 = some 3 ∧
    ((((lruDemo.Bring 0 "B").1.Bring 0 "A").1.Bring 0 "C").1.Bring
        0 "D").2 = some 4 := by
  decide

/-- C4.  Arrival (FIFO) eviction ignores access: the same sequence with
the FIFO strategy evicts A, the oldest insertion, despite the earlier
`Get A` touch; B, C, D remain. -/
theorem fifo_arrival_eviction :
    (fifoDemo.Bring 0 "A").2 = none ∧
    ((fifoDemo.Bring 0 "A").1.Bring 0 "B").2 = some 2 ∧
    (((fifoDemo.Bring 0 "A").1.Bring 0 "B").1.Bring 0 "C").2 = some 3 ∧
    ((((fifoDemo.Bring 0 "A").1.Bring 0 "B").1.Bring 0 "C").1.Bring
        0 "D").2 = some 4 := by
  decide

/-- C5.  Overwrite semantics: `Nail` on an open bucket for a key with a
live entry succeeds, updates the entry in place (same identity, value
and deadline refreshed), invokes the strategy's `Access` (in
particular no `Evict`), leaves `Size` unchanged, and an immediate
`Bring` returns the new value. -/
theorem overwrite_semantics {b : Bucket T} {k : String}
    {it : CacheItem T} (now : Nat) (v : T) (hOpen : b.closed = false)
    (hLook : lookupCache b.cache k = some it)
    (_hLive : it.expired now = false) :
    (b.Nail now k v).2 = none ∧
    ((b.Nail now k v).1).updater = b.updater.Access ⟨it.id, it.key⟩ ∧
    lookupCache ((b.Nail now k v).1).cache k
      = some { it with value := v,
                       expiredAt := if b.neverExpire then none
                         else some (now + b.outdated) } ∧
    ((b.Nail now k v).1).Size = b.Size ∧
    ((b.Nail now k v).1.Bring now k).2 = some v := by
  have hnail : b.Nail now k v = ({ b with
      cache := insertCache b.cache
        { it with value := v,
                  expiredAt := if b.neverExpire then none
                    else some (now + b.outdated) },
      updater := b.updater.Access ⟨it.id, it.key⟩ }, none) := by
    unfold Bucket.Nail Bucket.isClosed
    rw [hOpen, if_neg (by simp), hLook]
  have hk := (lookupCache_mem hLook).2
  have hlk : lookupCache ((b.Nail now k v).1).cache k
      = some { it with value := v,
                       expiredAt := if b.neverExpire then none
                         else some (now + b.outdated) } := by
    rw [hnail]
    dsimp only
    rw [← hk]
    exact lookupCache_insertCache _ _
  refine ⟨by rw [hnail], by rw [hnail], hlk, ?_, ?_⟩
  · rw [hnail]
    dsimp only
    unfold Bucket.Size Bucket.isClosed
    dsimp only
    rw [hOpen]
    simp only [Bool.false_eq_true, if_false]
    rw [Strategy.size_Access]
  · unfold Bucket.Bring Bucket.isClosed
    rw [(nail_fields b now k v).1, hOpen, if_neg (by simp), hlk]
    dsimp only
    rw [fresh_item_expired b.neverExpire now b.outdated it.id it.key v,
      if_neg (by simp)]

/-- Witness for C5: overwrite the single entry of a one-entry bucket. -/
theorem overwrite_semantics_witness :
    (((initBucket 3 100 false (.lru []) (T := Nat)).Nail
          0 "k" 5).1.closed = false
      ∧ lookupCache (((initBucket 3 100 false (.lru [])
            (T := Nat)).Nail 0 "k" 5).1).cache "k"
          = some ⟨0, "k", 5, some 100⟩
      ∧ (⟨0, "k", 5, some 100⟩ : CacheItem Nat).expired 0 = false)
    ∧ ((((initBucket 3 100 false (.lru []) (T := Nat)).Nail
          0 "k" 5).1.Nail 0 "k" 9).1.Bring 0 "k").2 = some 9 := by
  have hl : lookupCache (((initBucket 3 100 false (.lru [])
      (T := Nat)).Nail 0 "k" 5).1).cache "k"
      = some ⟨0, "k", 5, some 100⟩ := by decide
  exact ⟨⟨by decide, hl, by decide⟩,
    (overwrite_semantics 0 9 (by decide) hl (by decide)).2.2.2.2⟩

/-- C6.  TTL expiration discovered on read: on an open, not-never-expire
bucket in a reachable state, `Nail` then an immediate `Bring` hits;
once strictly more than the TTL has elapsed, `Bring` misses and removes
the stale entry through the sweeper's remove path (key-table delete
plus strategy `Remove`), so `Size` drops by one and the key is gone
from the strategy's ordering. -/
theorem ttl_expiration_on_read {b : Bucket T} (now : Nat) (k : String)
    (v : T) (hInv : Inv b) (hOpen : b.closed = false)
    (hNe : b.neverExpire = false) :
    ((b.Nail now k v).1.Bring now k).2 = some v ∧
    ∀ now2, now + b.outdated < now2 →
      ((b.Nail now k v).1.Bring now2 k).2 = none ∧
      ((b.Nail now k v).1.Bring now2 k).1
        = ((b.Nail now k v).1).removeKey k ∧
      (((b.Nail now k v).1.Bring now2 k).1).Size + 1
        = ((b.Nail now k v).1).Size ∧
      ∀ x ∈ (((b.Nail now k v).1.Bring now2 k).1).updater.refs,
        x.key ≠ k := by
  obtain ⟨it1, hl1, hval, hexp⟩ := nail_lookup hOpen now k v
  rw [hNe] at hexp
  simp only [Bool.false_eq_true, if_false] at hexp
  have hcl1 : ((b.Nail now k v).1).closed = false := by
    rw [(nail_fields b now k v).1, hOpen]
  have hInv1 : Inv ((b.Nail now k v).1) := inv_nail hInv now k v
  constructor
  · unfold Bucket.Bring Bucket.isClosed
    rw [hcl1, if_neg (by simp), hl1]
    dsimp only
    rw [expired_of_deadline_ge hexp (Nat.le_add_right _ _),
      if_neg (by simp)]
    dsimp only
    rw [hval]
  · intro now2 h2
    have hexp2 : it1.expired now2 = true := by
      unfold CacheItem.expired
      rw [hexp]
      exact decide_eq_true h2
    exact bring_expired_removes hInv1 hcl1 hl1 hexp2

/-- Witness for C6: in an empty LRU bucket with TTL 100, write at
instant 0 and read back at instant 101. -/
theorem ttl_expiration_on_read_witness :
    (Inv (initBucket 3 100 false (.lru []) (T := Nat))
      ∧ (initBucket 3 100 false (.lru []) (T := Nat)).closed = false
      ∧ (initBucket 3 100 false (.lru []) (T := Nat)).neverExpire
          = false)
    ∧ (((initBucket 3 100 false (.lru []) (T := Nat)).Nail
        0 "a" 7).1.Bring 101 "a").2 = none := by
  have hInv : Inv (initBucket 3 100 false (.lru []) (T := Nat)) :=
    inv_initBucket 3 100 false (s := Strategy.lru []) rfl
  exact ⟨⟨hInv, rfl, rfl⟩,
    ((ttl_expiration_on_read 0 "a" 7 hInv rfl rfl).2 101 (by decide)).1⟩

/-- C7.  Closed-state behavior: once the bucket is closed, `Nail`
returns the bucket-closed error (the only error the core ever
surfaces) and changes nothing, `Bring` misses, `Size` is 0, and
`Clear` is a no-op; none of them panic or return further errors. -/
theorem closed_state_behavior {b : Bucket T} (now : Nat) (k : String)
    (v : T) (h : b.closed = true) :
    b.Nail now k v = (b, some .bucketClosed) ∧
    b.Bring now k = (b, none) ∧
    b.Size = 0 ∧
    b.Clear = b := by
  unfold Bucket.Nail Bucket.Bring Bucket.Size Bucket.Clear
    Bucket.isClosed
  rw [h]
  exact ⟨if_pos rfl, if_pos rfl, if_pos rfl, if_pos rfl⟩

/-- Witness for C7: the bucket obtained by closing a fresh bucket. -/
theorem closed_state_behavior_witness :
    ((Bucket.Close (initBucket 3 100 false (.lru [])
        (T := Nat))).1.closed = true)
    ∧ (Bucket.Close (initBucket 3 100 false (.lru [])
        (T := Nat))).1.Nail 0 "a" 1
      = ((Bucket.Close (initBucket 3 100 false (.lru [])
          (T := Nat))).1, some .bucketClosed)
    ∧ (Bucket.Close (initBucket 3 100 false (.lru [])
        (T := Nat))).1.Size = 0 := by
  have h := closed_state_behavior
    (b := (Bucket.Close (initBucket 3 100 false (.lru [])
      (T := Nat))).1) 0 "a" 1 (by decide)
  exact ⟨by decide, h.1, h.2.2.1⟩

/-- C8.  Idempotent `Close`: `Close` always returns success, leaves the
bucket closed with `Size` 0, a second `Close` is a no-op that also
succeeds, and the first transition from the open state clears the key
table and the strategy. -/
theorem close_idempotent (b : Bucket T) :
    (b.Close).2 = none ∧
    ((b.Close).1).closed = true ∧
    ((b.Close).1).Size = 0 ∧
    (b.Close).1.Close = ((b.Close).1, none) ∧
    (b.closed = false →
      ((b.Close).1).cache = [] ∧
      ((b.Close).1).updater = b.updater.Clear) := by
  by_cases hc : b.closed = true
  · have hcl : b.Close = (b, none) := by
      unfold Bucket.Close
      rw [if_pos hc]
    rw [hcl]
    dsimp only
    refine ⟨rfl, hc, ?_, ?_, ?_⟩
    · unfold Bucket.Size Bucket.isClosed
      rw [hc, if_pos rfl]
    · exact hcl
    · intro h0
      rw [hc] at h0
      simp at h0
  · have hcl : b.Close = ({ b with closed := true, cache := [],
                                   updater := b.updater.Clear }, none) := by
      unfold Bucket.Close
      rw [if_neg hc]
    rw [hcl]
    dsimp only
    refine ⟨rfl, rfl, ?_, ?_, fun _ => ⟨rfl, rfl⟩⟩
    · unfold Bucket.Size Bucket.isClosed
      dsimp only
      rw [if_pos rfl]
    · unfold Bucket.Close
      dsimp only
      rw [if_pos rfl]

/-- Witness for C8 on a fresh open bucket. -/
theorem close_idempotent_witness :
    ((initBucket 3 100 false (.lru []) (T := Nat)).Close).2 = none
    ∧ (((initBucket 3 100 false (.lru []) (T := Nat)).Close).1).closed
        = true
    ∧ (((initBucket 3 100 false (.lru []) (T := Nat)).Close).1).Size = 0
    ∧ ((initBucket 3 100 false (.lru []) (T := Nat)).Close).1.Close
        = (((initBucket 3 100 false (.lru []) (T := Nat)).Close).1,
           none)
    ∧ ((initBucket 3 100 false (.lru []) (T := Nat)).closed = false →
        (((initBucket 3 100 false (.lru [])
            (T := Nat)).Close).1).cache = []
        ∧ (((initBucket 3 100 false (.lru [])
            (T := Nat)).Close).1).updater
            = (initBucket 3 100 false (.lru [])
                (T := Nat)).updater.Clear) :=
  close_idempotent _

/-- C9.  Never-expire mode (the option's Go source is missing from the
embedded files; `WithBucketNeverExpire` is modelled from the spec):
with the flag set, `Nail` stores an unbounded deadline regardless of
the TTL; entries with unbounded deadlines are never removed by a
sweeper tick and never expired away by a read, leaving capacity
eviction, `Clear` and `Close` as the only removal paths. -/
theorem never_expire_mode {b : Bucket T} (now : Nat) (k : String)
    (v : T) (hNe : b.neverExpire = true) (hOpen : b.closed = false) :
    (∃ it, lookupCache ((b.Nail now k v).1).cache k = some it ∧
      it.expiredAt = none ∧ it.value = v) ∧
    ((∀ it ∈ b.cache, it.expiredAt = none) →
      ∀ now2, b.cleanupExpired now2 = b) ∧
    (∀ k2 it2, lookupCache b.cache k2 = some it2 →
      it2.expiredAt = none → (b.Bring now k2).2 = some it2.value) ∧
    (∀ b2 : Bucket T, (WithBucketNeverExpire b2).neverExpire = true) := by
  refine ⟨?_, ?_, ?_, fun b2 => rfl⟩
  · obtain ⟨it1, hl1, hval, hexp⟩ := nail_lookup hOpen now k v
    rw [hNe, if_pos rfl] at hexp
    exact ⟨it1, hl1, hexp, hval⟩
  · intro hall now2
    unfold Bucket.cleanupExpired
    by_cases hc : b.closed = true
    · rw [if_pos hc]
    · rw [if_neg hc]
      have hfilter : b.cache.filter (fun it => it.expired now2) = [] := by
        rw [List.filter_eq_nil_iff]
        intro it hm
        rw [expired_none (hall it hm) now2]
        simp
      rw [hfilter]
      rfl
  · intro k2 it2 hl2 hexp2
    unfold Bucket.Bring Bucket.isClosed
    rw [hOpen, if_neg (by simp), hl2]
    dsimp only
    rw [expired_none hexp2 now, if_neg (by simp)]

/-- Witness for C9 on a fresh never-expire bucket. -/
theorem never_expire_mode_witness :
    ((WithBucketNeverExpire (initBucket 3 100 false (.lru [])
        (T := Nat))).neverExpire = true
      ∧ (WithBucketNeverExpire (initBucket 3 100 false (.lru [])
          (T := Nat))).closed = false)
    ∧ ∃ it, lookupCache (((WithBucketNeverExpire (initBucket 3 100
          false (.lru []) (T := Nat))).Nail 0 "a" 1).1).cache "a"
        = some it ∧ it.expiredAt = none ∧ it.value = 1 :=
  ⟨⟨rfl, rfl⟩, (never_expire_mode 0 "a" 1 rfl rfl).1⟩

/-- C10.  Non-positive capacity: `WithMaxSize` stores any `int`
unvalidated; with `maxSize <= 0` and the built-in LRU strategy a `Nail`
of a new key still succeeds (evicting the resident entry first, if
any), so the size reaches 1 — above the configured capacity — and
never exceeds 1 under any sequence of `Nail` calls. -/
theorem nonpositive_capacity (m : Int) (hm : m ≤ 0) (t : Nat)
    (ne : Bool) (l : List (Nat × String × T)) (now : Nat) (k : String)
    (v : T) :
    (runNails (initBucket m t ne (.lru [])) l).updater.Size ≤ 1 ∧
    ((initBucket m t ne (Strategy.lru []) (T := T)).Nail now k v).2
      = none ∧
    (((initBucket m t ne (Strategy.lru [])
        (T := T)).Nail now k v).1).updater.Size = 1 ∧
    (∀ b2 : Bucket T, (WithMaxSize m b2).maxSize = m) := by
  have hsz : (initBucket m t ne (Strategy.lru []) (T := T)).maxSize
      ≤ ((initBucket m t ne (Strategy.lru [])
          (T := T)).updater.Size : Int) := by
    exact le_trans hm (Int.natCast_nonneg _)
  have hne := nail_empty
    (b := initBucket m t ne (Strategy.lru []) (T := T))
    rfl rfl hsz rfl now k v
  refine ⟨runNails_size_le_one l hm (Nat.zero_le _), ?_, ?_,
    fun b2 => rfl⟩
  · rw [hne]
  · rw [hne]
    dsimp only [Bucket.nailInsert]
    rw [Strategy.size_Add]
    rfl

/-- Witness for C10 at maxSize 0. -/
theorem nonpositive_capacity_witness :
    (0 : Int) ≤ 0 ∧
    (runNails (initBucket 0 100 false (.lru []) (T := Nat))
        [(0, "a", 1), (0, "b", 2)]).updater.Size ≤ 1 ∧
    (((initBucket 0 100 false (Strategy.lru [])
        (T := Nat)).Nail 0 "c" 3).1).updater.Size = 1 := by
  have h := nonpositive_capacity 0 (by decide) 100 false
    [(0, "a", 1), (0, "b", 2)] 0 "c" (3 : Nat)
  exact ⟨by decide, h.1, h.2.2.1⟩

end Heatwave
